import Mathlib

/-!
Verification of the minimum-curvature spline optimizer
(`min_curv_lib/src/curv_min.cpp`, namespace `spline::optimization`).

The C++ code is shallowly embedded over exact real arithmetic:
`double` becomes `ℝ`, Eigen vectors/matrices become functions and
`Matrix (Fin n) (Fin m) ℝ`, and the external collaborators (the OSQP
solver, the nanoflann k-d tree, the spline objects) enter as oracle
inputs: the k-d tree's k-nearest query result is an abstract candidate
list, and the QP solver's outcome is an abstract (success flag,
solution vector) pair, exactly the data the code reads from them.
-/

noncomputable section

open Matrix

namespace CurvMin

/-! ## Boundary distance computation (`MinCurvatureOptimizer::getBoundaryDistance`)

For one control point the loop body at lines 196-240 computes, for a
candidate boundary sample `p`:
  `a_line = -normal.y`, `b_line = normal.x`,
  `c_line = -a_line*cp.x - b_line*cp.y`,
  `plane2point = |a_line*p.x + b_line*p.y + c_line| / sqrt(a_line^2 + b_line^2)`
and remembers the Euclidean distance of the candidate minimizing
`plane2point`.  The `DBL_MAX` sentinel initializing the running minima
(never attained by an actual distance) is modelled by an `Option`
accumulator that is unset before the first candidate. -/

/-- Perpendicular distance from sample `p` to the line through control
point `cp` written in implicit form with `(a,b) = (-nv.y, nv.x)`,
exactly as in the loop body (lines 201-204, 215, 230). -/
def planeDist (cp nv p : ℝ × ℝ) : ℝ :=
  |(-nv.2) * p.1 + nv.1 * p.2 + (-(-nv.2) * cp.1 - nv.1 * cp.2)| /
    Real.sqrt ((-nv.2) * (-nv.2) + nv.1 * nv.1)

/-- Euclidean distance `(p - q).norm()` (line 218/233). -/
def eucDist (p q : ℝ × ℝ) : ℝ :=
  Real.sqrt ((p.1 - q.1) ^ 2 + (p.2 - q.2) ^ 2)

/-- The candidate-selection loop (lines 211-220 resp. 226-235): fold over
the k-d tree's k nearest candidates, keeping the pair
(min plane2point distance, Euclidean distance of that minimizer). -/
def selectAcross (cp nv : ℝ × ℝ) (pts : List (ℝ × ℝ)) : Option (ℝ × ℝ) :=
  pts.foldl
    (fun acc p =>
      match acc with
      | none => some (planeDist cp nv p, eucDist p cp)
      | some (mpd, md) =>
          if planeDist cp nv p < mpd then some (planeDist cp nv p, eucDist p cp)
          else some (mpd, md))
    none

/-- One entry of the `distance` matrix (lines 238-239):
`max(0, min_distance - params_->shrink)`.  The `none` case corresponds
to `num_nearest = 0`, which the configuration contract excludes. -/
def clearance (shrink : ℝ) (cp nv : ℝ × ℝ) (pts : List (ℝ × ℝ)) : ℝ :=
  match selectAcross cp nv pts with
  | some pr => max 0 (pr.2 - shrink)
  | none => max 0 (0 - shrink)

/-! ## Constraint construction (`MinCurvatureOptimizer::computeConstraints`) -/

/-- Vector `lower_bound_` (lines 247, 251, 254): start from `-distance.col(1)`
(minus the right clearance), pin index `0` to `0`, then scale index
`n-1` by `last_point_shrink`. -/
def lbVec (n : ℕ) (d : ℕ → ℝ × ℝ) (lps : ℝ) : ℕ → ℝ :=
  let base : ℕ → ℝ := fun i => -(d i).2
  let fixedFirst := Function.update base 0 0
  Function.update fixedFirst (n - 1) (lps * fixedFirst (n - 1))

/-- Vector `upper_bound_` (lines 248, 252, 255): start from `distance.col(0)`
(the left clearance), pin index `0` to `0`, then scale index `n-1` by
`last_point_shrink`. -/
def ubVec (n : ℕ) (d : ℕ → ℝ × ℝ) (lps : ℝ) : ℕ → ℝ :=
  let base : ℕ → ℝ := fun i => (d i).1
  let fixedFirst := Function.update base 0 0
  Function.update fixedFirst (n - 1) (lps * fixedFirst (n - 1))

/-- Constraint matrix `A_ = Eigen::MatrixXd::Identity(n, n)` (line 249). -/
def constraintA (n : ℕ) : Matrix (Fin n) (Fin n) ℝ := 1

/-! ## Solution application (`MinCurvatureOptimizer::solve`, lines 293-315)

The generic QP solver is an external collaborator; what `solve` reads
from it is `getSolution()` — and it never reads the status returned by
`initSolver()`/`solveProblem()`.  The outcome is therefore modelled as
a record carrying both the success flag and the solution vector, and
the embedded `solve` is a function of that record. -/

/-- What the code reads from (and ignores about) the OSQP solver after
`solveProblem()`: a success flag and the raw solution vector. -/
structure SolverOutcome where
  success : Bool
  solution : ℕ → ℝ

/-- Lines 305-313: `solution = normal_weight * getSolution()`, then
`optimized[i] = control_points[i] + solution(i) * normal_vectors_.row(i)`. -/
def solveOutput (cps : List (ℝ × ℝ)) (nv : ℕ → ℝ × ℝ) (sol : ℕ → ℝ) (w : ℝ) :
    List (ℝ × ℝ) :=
  (List.range cps.length).map fun i =>
    ((cps.getD i (0, 0)).1 + (w * sol i) * (nv i).1,
     (cps.getD i (0, 0)).2 + (w * sol i) * (nv i).2)

/-- Method `solve` as a transformer of a spline store (splines addressed by id,
so the output spline may alias the reference spline, as both are passed
by `shared_ptr`): the new control points are built from the reference
spline's points, then the single mutation `setControlPoints` (line 314)
overwrites the output spline.  The success flag of `out` is never
consulted, mirroring the discarded return values of lines 296-297. -/
def solveRun (store : ℕ → List (ℝ × ℝ)) (refId outId : ℕ) (nv : ℕ → ℝ × ℝ)
    (out : SolverOutcome) (w : ℝ) : ℕ → List (ℝ × ℝ) :=
  Function.update store outId (solveOutput (store refId) nv out.solution w)

/-! ## The continuity system matrix (`MinCurvatureOptimizer::setSystemMatrixInverse`)

Lines 52-95 build a sparse `4N x 4N` matrix entry by entry (`insert`
calls) and invert it by a sparse-LU solve against the identity.  Each
`insert(r, c) = v` is transcribed as a `(r, c, v)` triple, in program
order; the matrix entry is the sum of the matching triples (for
`N >= 2` all inserted positions are distinct, so the sum is the single
inserted value, and unset positions are `0`). -/

/-- The fixed inserts of lines 55-67 (boundary rows of the first
segment). -/
def hdrTriples : List (ℕ × ℕ × ℝ) :=
  [(0, 0, 1), (1, 2, 2),
   (2, 0, 1), (2, 1, 1), (2, 2, 1), (2, 3, 1),
   (3, 1, 1), (3, 2, 2), (3, 3, 3), (3, 5, -1),
   (4, 2, 1), (4, 3, 3), (4, 6, -1)]

/-- The fixed inserts of lines 68-70 (boundary rows of the last
segment), with `size_system = 4N`. -/
def tailTriples (N : ℕ) : List (ℕ × ℕ × ℝ) :=
  [(4 * N - 3, 4 * N - 4, 1), (4 * N - 2, 4 * N - 2, 2), (4 * N - 1, 4 * N - 1, 1)]

/-- The loop-body inserts of lines 72-83 for one interior segment `i`. -/
def loopTriples (i : ℕ) : List (ℕ × ℕ × ℝ) :=
  [(4 * i + 1, 4 * i, 1),
   (4 * i + 2, 4 * i, 1), (4 * i + 2, 4 * i + 1, 1),
   (4 * i + 2, 4 * i + 2, 1), (4 * i + 2, 4 * i + 3, 1),
   (4 * i + 3, 4 * i + 1, 1), (4 * i + 3, 4 * i + 2, 2),
   (4 * i + 3, 4 * i + 3, 3), (4 * i + 3, 4 * i + 5, -1),
   (4 * i + 4, 4 * i + 2, 1), (4 * i + 4, 4 * i + 3, 3),
   (4 * i + 4, 4 * i + 6, -1)]

/-- All inserts of `setSystemMatrixInverse`, in program order (the loop
runs `i = 1 .. size-2`). -/
def systemTriples (N : ℕ) : List (ℕ × ℕ × ℝ) :=
  hdrTriples ++ tailTriples N ++ (List.range (N - 2)).flatMap (fun k => loopTriples (k + 1))

/-- The assembled `system_matrix_sparse` as a dense matrix. -/
def system_matrix (N : ℕ) : Matrix (Fin (4 * N)) (Fin (4 * N)) ℝ :=
  Matrix.of fun r c =>
    ((systemTriples N).map fun t =>
      if t.1 = (r : ℕ) ∧ t.2.1 = (c : ℕ) then t.2.2 else 0).sum

/-- Row functional of a triple list: the value contributed to row `r`
of `M * v` by the listed entries. -/
def rowVal (L : List (ℕ × ℕ × ℝ)) (w : ℕ → ℝ) (r : ℕ) : ℝ :=
  (L.map fun t => if t.1 = r then t.2.2 * w t.2.1 else 0).sum

/-- The system inverse obtained from the (exact-arithmetic model of
the) sparse-LU solve against the identity, lines 86-94. -/
def sysInvOf (N : ℕ) : Matrix (Fin (4 * N)) (Fin (4 * N)) ℝ :=
  (system_matrix N)⁻¹

/-! ## Objective assembly (`MinCurvatureOptimizer::computeHessianAndLinear`)

Lines 97-163.  The reference spline enters through its control points
and the row-1 (`b`) coefficient rows of its per-axis coefficient
matrices; the optimizer state enters through the cached
`system_inverse_`. -/

/-- Eigen `rowwise().normalize()`: divide a row by its own Euclidean
norm.  (Real-arithmetic model: division of the zero row by its zero
norm yields the zero row, where IEEE doubles would produce NaN; no
branch of the code distinguishes the two.) -/
def normalize (p : ℝ × ℝ) : ℝ × ℝ :=
  (p.1 / Real.sqrt (p.1 ^ 2 + p.2 ^ 2), p.2 / Real.sqrt (p.1 ^ 2 + p.2 ^ 2))

/-- Lines 102-104: the unnormalized normal of control point `i` is
`(-coeff_y_b(i), coeff_x_b(i))`, built from the first-derivative
(`b`-row) spline coefficients. -/
def rawNormal (cbx cby : ℕ → ℝ) (i : ℕ) : ℝ × ℝ :=
  (-(cby i), cbx i)

/-- Line 107: `normal_vectors_.rowwise().normalize()`. -/
def normalVec (cbx cby : ℕ → ℝ) (i : ℕ) : ℝ × ℝ :=
  normalize (rawNormal cbx cby i)

/-- Line 113: `square_normals(i) = nx(i)^2 + ny(i)^2`. -/
def sqNormal (nv : ℕ → ℝ × ℝ) (i : ℕ) : ℝ :=
  (nv i).1 ^ 2 + (nv i).2 ^ 2

/-- Line 114: `P_xx = diag(nx^2 / square_normals)`. -/
def Pxx (n : ℕ) (nv : ℕ → ℝ × ℝ) : Matrix (Fin n) (Fin n) ℝ :=
  Matrix.diagonal fun i => (nv (i : ℕ)).1 ^ 2 / sqNormal nv (i : ℕ)

/-- Line 115: `P_yy = diag(ny^2 / square_normals)`. -/
def Pyy (n : ℕ) (nv : ℕ → ℝ × ℝ) : Matrix (Fin n) (Fin n) ℝ :=
  Matrix.diagonal fun i => (nv (i : ℕ)).2 ^ 2 / sqNormal nv (i : ℕ)

/-- Line 116: `P_xy = diag(2 * ny * nx / square_normals)`. -/
def Pxy (n : ℕ) (nv : ℕ → ℝ × ℝ) : Matrix (Fin n) (Fin n) ℝ :=
  Matrix.diagonal fun i => 2 * (nv (i : ℕ)).2 * (nv (i : ℕ)).1 / sqNormal nv (i : ℕ)

/-- Vectors `q_x` / `q_y` (lines 119-120, 126-129, 137-140, 147-148): one axis
of the reference control points injected into the `4n`-long
coefficient-space vector.  `coord` selects the axis. -/
def qVec (n : ℕ) (coord : ℕ → ℝ) : Fin (4 * n) → ℝ := fun j =>
  (if (j : ℕ) = 0 then coord 0 else 0) + (if (j : ℕ) = 2 then coord 1 else 0) +
    (∑ i ∈ Finset.Ico 1 (n - 1),
      ((if (j : ℕ) = 4 * i + 1 then coord i else 0) +
        (if (j : ℕ) = 4 * i + 2 then coord (i + 1) else 0))) +
    (if (j : ℕ) = 4 * n - 3 then coord (n - 1) else 0)

/-- Matrices `M_x` / `M_y` (lines 121-122, 130-133, 141-144, 149-150): the
injection matrix carrying one component (`comp`) of the normals. -/
def Mmat (n : ℕ) (comp : ℕ → ℝ) : Matrix (Fin (4 * n)) (Fin n) ℝ :=
  Matrix.of fun j i =>
    (if (j : ℕ) = 0 ∧ (i : ℕ) = 0 then comp 0 else 0) +
      (if (j : ℕ) = 2 ∧ (i : ℕ) = 1 then comp 1 else 0) +
      (∑ k ∈ Finset.Ico 1 (n - 1),
        ((if (j : ℕ) = 4 * k + 1 ∧ (i : ℕ) = k then comp k else 0) +
          (if (j : ℕ) = 4 * k + 2 ∧ (i : ℕ) = k + 1 then comp (k + 1) else 0))) +
      (if (j : ℕ) = 4 * n - 3 ∧ (i : ℕ) = n - 1 then comp (n - 1) else 0)

/-- Matrix `A_ex` (lines 123, 134, 145, 151): the extraction matrix selecting
one coefficient per control point. -/
def AexMat (n : ℕ) : Matrix (Fin n) (Fin (4 * n)) ℝ :=
  Matrix.of fun i j =>
    (if (i : ℕ) = 0 ∧ (j : ℕ) = 2 then 1 else 0) +
      (∑ k ∈ Finset.Ico 1 (n - 1),
        (if (i : ℕ) = k ∧ (j : ℕ) = 4 * k + 2 then 1 else 0)) +
      (if (i : ℕ) = n - 1 ∧ (j : ℕ) = 4 * n - 2 then 1 else 0)

/-- Line 156: `T_c = 2 * A_ex * system_inverse_`. -/
def TcMat (n : ℕ) (si : Matrix (Fin (4 * n)) (Fin (4 * n)) ℝ) :
    Matrix (Fin n) (Fin (4 * n)) ℝ :=
  (2 : ℝ) • (AexMat n * si)

/-- Line 157: `T_nx = T_c * M_x`. -/
def TnxMat (n : ℕ) (nv : ℕ → ℝ × ℝ) (si : Matrix (Fin (4 * n)) (Fin (4 * n)) ℝ) :
    Matrix (Fin n) (Fin n) ℝ :=
  TcMat n si * Mmat n (fun i => (nv i).1)

/-- Line 158: `T_ny = T_c * M_y`. -/
def TnyMat (n : ℕ) (nv : ℕ → ℝ × ℝ) (si : Matrix (Fin (4 * n)) (Fin (4 * n)) ℝ) :
    Matrix (Fin n) (Fin n) ℝ :=
  TcMat n si * Mmat n (fun i => (nv i).2)

/-- Line 159: `tmp = T_nx' P_xx T_nx + T_ny' P_xy T_nx + T_ny' P_yy T_ny`
(`adjoint` on real matrices is the transpose). -/
def tmpMat (n : ℕ) (nv : ℕ → ℝ × ℝ) (si : Matrix (Fin (4 * n)) (Fin (4 * n)) ℝ) :
    Matrix (Fin n) (Fin n) ℝ :=
  (TnxMat n nv si)ᵀ * Pxx n nv * TnxMat n nv si +
    (TnyMat n nv si)ᵀ * Pxy n nv * TnxMat n nv si +
    (TnyMat n nv si)ᵀ * Pyy n nv * TnyMat n nv si

/-- Line 162: `H_ = (tmp.adjoint() + tmp) / 2`. -/
def Hmat (n : ℕ) (nv : ℕ → ℝ × ℝ) (si : Matrix (Fin (4 * n)) (Fin (4 * n)) ℝ) :
    Matrix (Fin n) (Fin n) ℝ :=
  (2 : ℝ)⁻¹ • ((tmpMat n nv si)ᵀ + tmpMat n nv si)

/-- Lines 160-161: the gradient
`c_ = 2 T_nx' P_xx' T_c q_x + T_ny' P_xy' T_c q_x + 2 T_ny' P_yy' T_c q_y + T_nx' P_xy' T_c q_y`. -/
def cGrad (n : ℕ) (nv : ℕ → ℝ × ℝ) (si : Matrix (Fin (4 * n)) (Fin (4 * n)) ℝ)
    (cps : ℕ → ℝ × ℝ) : Fin n → ℝ :=
  (2 : ℝ) • ((TnxMat n nv si)ᵀ * (Pxx n nv)ᵀ * TcMat n si).mulVec
      (qVec n (fun i => (cps i).1)) +
    ((TnyMat n nv si)ᵀ * (Pxy n nv)ᵀ * TcMat n si).mulVec
      (qVec n (fun i => (cps i).1)) +
    (2 : ℝ) • ((TnyMat n nv si)ᵀ * (Pyy n nv)ᵀ * TcMat n si).mulVec
      (qVec n (fun i => (cps i).2)) +
    ((TnxMat n nv si)ᵀ * (Pxy n nv)ᵀ * TcMat n si).mulVec
      (qVec n (fun i => (cps i).2))

/-! ## The setup lifecycle (`setUp` / `setupQP`, lines 42-50, 258-276) -/

/-- The data `setupQP` reads: the reference spline (size, control
points, `b`-coefficient rows), the k-d tree query results against the
sampled left/right boundary clouds (one candidate list per control
point — the k-d tree build and query, lines 172-194, are the external
collaborator), and the configuration fields it consults. -/
structure OptInputs where
  n : ℕ
  cps : ℕ → ℝ × ℝ
  coefBx : ℕ → ℝ
  coefBy : ℕ → ℝ
  leftCands : ℕ → List (ℝ × ℝ)
  rightCands : ℕ → List (ℝ × ℝ)
  constantSystemMatrix : Bool
  shrinkMargin : ℝ

/-- The problem data loaded into the solver by `setupQP`
(lines 269-275). -/
structure QPData (n : ℕ) where
  H : Matrix (Fin n) (Fin n) ℝ
  c : Fin n → ℝ
  A : Matrix (Fin n) (Fin n) ℝ
  lb : ℕ → ℝ
  ub : ℕ → ℝ

/-- The `distance` matrix of `getBoundaryDistance` (lines 196-241):
column 0 is the left clearance, column 1 the right clearance. -/
def boundaryDistance (inp : OptInputs) : ℕ → ℝ × ℝ := fun i =>
  (clearance inp.shrinkMargin (inp.cps i) (normalVec inp.coefBx inp.coefBy i)
      (inp.leftCands i),
   clearance inp.shrinkMargin (inp.cps i) (normalVec inp.coefBx inp.coefBy i)
      (inp.rightCands i))

/-- The `(H, c, A, lower, upper)` computed by one `setupQP` pass from
the inputs and the current `system_inverse_`. -/
def setupOutputs (inp : OptInputs) (si : Matrix (Fin (4 * inp.n)) (Fin (4 * inp.n)) ℝ)
    (lps : ℝ) : QPData inp.n :=
  { H := Hmat inp.n (normalVec inp.coefBx inp.coefBy) si
    c := cGrad inp.n (normalVec inp.coefBx inp.coefBy) si inp.cps
    A := constraintA inp.n
    lb := lbVec inp.n (boundaryDistance inp) lps
    ub := ubVec inp.n (boundaryDistance inp) lps }

/-- One `setupQP` pass as a transformer of the mutable
`system_inverse_` state: line 153 recomputes the inverse from the
current control-point count unless `constant_system_matrix` caches the
one computed at construction; the Hessian, gradient and bounds are
then recomputed from scratch (no accumulation). -/
def setupStep (inp : OptInputs) (lps : ℝ)
    (si : Matrix (Fin (4 * inp.n)) (Fin (4 * inp.n)) ℝ) :
    Matrix (Fin (4 * inp.n)) (Fin (4 * inp.n)) ℝ × QPData inp.n :=
  let si' := if inp.constantSystemMatrix then si else sysInvOf inp.n
  (si', setupOutputs inp si' lps)

/-- Method `setupQP` with its input validation: the only check performed is
`assert(last_point_shrink >= 0.0 && last_point_shrink <= 1.0)`
(line 260); no other property of the inputs is inspected before the
computation proceeds. -/
def setupQPRun (inp : OptInputs) (lps : ℝ)
    (si : Matrix (Fin (4 * inp.n)) (Fin (4 * inp.n)) ℝ) :
    Option (Matrix (Fin (4 * inp.n)) (Fin (4 * inp.n)) ℝ × QPData inp.n) :=
  if 0 ≤ lps ∧ lps ≤ 1 then some (setupStep inp lps si) else none

/-- Concrete input whose reference spline has an identically zero
first-derivative coefficient row: every raw normal is the zero vector
(degenerate). -/
def degenInput : OptInputs :=
  { n := 2
    cps := fun _ => (0, 0)
    coefBx := fun _ => 0
    coefBy := fun _ => 0
    leftCands := fun _ => [(0, 2)]
    rightCands := fun _ => [(0, -2)]
    constantSystemMatrix := true
    shrinkMargin := 0 }

/-- Concrete non-degenerate input used to instantiate the
boundary-clearance theorem. -/
def sampleInput : OptInputs :=
  { n := 2
    cps := fun _ => (0, 0)
    coefBx := fun _ => 1
    coefBy := fun _ => 0
    leftCands := fun _ => [(0, 2)]
    rightCands := fun _ => [(0, -2)]
    constantSystemMatrix := true
    shrinkMargin := 0 }

end CurvMin

namespace CurvMin

/-! ## Helper lemmas -/

/-- Fold invariant for the candidate-selection loop: starting from an
accumulator holding candidate `p0`, the fold returns a candidate that
minimizes `planeDist` among `p0` and the remaining list, paired with
its Euclidean distance. -/
theorem selectAcross_foldl_spec (cp nv : ℝ × ℝ) :
    ∀ (pts : List (ℝ × ℝ)) (p0 : ℝ × ℝ),
      ∃ p1, (p1 = p0 ∨ p1 ∈ pts) ∧
        pts.foldl
          (fun acc p =>
            match acc with
            | none => some (planeDist cp nv p, eucDist p cp)
            | some (mpd, md) =>
                if planeDist cp nv p < mpd then
                  some (planeDist cp nv p, eucDist p cp)
                else some (mpd, md))
          (some (planeDist cp nv p0, eucDist p0 cp))
          = some (planeDist cp nv p1, eucDist p1 cp) ∧
        planeDist cp nv p1 ≤ planeDist cp nv p0 ∧
        ∀ q ∈ pts, planeDist cp nv p1 ≤ planeDist cp nv q := by
  intro pts
  induction pts with
  | nil =>
      intro p0
      exact ⟨p0, Or.inl rfl, rfl, le_refl _, by simp⟩
  | cons p rest ih =>
      intro p0
      by_cases h : planeDist cp nv p < planeDist cp nv p0
      · obtain ⟨p1, hmem, hfold, hle, hall⟩ := ih p
        refine ⟨p1, ?_, ?_, ?_, ?_⟩
        · rcases hmem with h1 | h1
          · exact Or.inr (by simp [h1])
          · exact Or.inr (by simp [h1])
        · simpa [List.foldl_cons, if_pos h] using hfold
        · exact le_of_lt (lt_of_le_of_lt hle h)
        · intro q hq
          rcases List.mem_cons.mp hq with h2 | h2
          · simpa [h2] using hle
          · exact hall q h2
      · obtain ⟨p1, hmem, hfold, hle, hall⟩ := ih p0
        refine ⟨p1, ?_, ?_, ?_, ?_⟩
        · rcases hmem with h1 | h1
          · exact Or.inl h1
          · exact Or.inr (by simp [h1])
        · simpa [List.foldl_cons, if_neg h] using hfold
        · exact hle
        · intro q hq
          rcases List.mem_cons.mp hq with h2 | h2
          · exact h2 ▸ le_trans hle (le_of_not_lt h)
          · exact hall q h2

/-- On a nonempty candidate list the selection loop returns a candidate
minimizing `planeDist`, paired with that candidate's Euclidean
distance to the control point. -/
theorem selectAcross_spec (cp nv : ℝ × ℝ) (pts : List (ℝ × ℝ)) (h : pts ≠ []) :
    ∃ p ∈ pts, selectAcross cp nv pts = some (planeDist cp nv p, eucDist p cp) ∧
      ∀ q ∈ pts, planeDist cp nv p ≤ planeDist cp nv q := by
  cases pts with
  | nil => exact absurd rfl h
  | cons p rest =>
      obtain ⟨p1, hmem, hfold, hle, hall⟩ := selectAcross_foldl_spec cp nv rest p
      refine ⟨p1, ?_, ?_, ?_⟩
      · rcases hmem with h1 | h1
        · simp [h1]
        · simp [h1]
      · simpa [selectAcross, List.foldl_cons] using hfold
      · intro q hq
        rcases List.mem_cons.mp hq with h2 | h2
        · exact h2 ▸ hle
        · exact hall q h2

/-- The reported clearance is nonnegative whatever the selection
returned. -/
theorem clearance_nonneg (shrink : ℝ) (cp nv : ℝ × ℝ) (pts : List (ℝ × ℝ)) :
    0 ≤ clearance shrink cp nv pts := by
  unfold clearance
  cases selectAcross cp nv pts with
  | none => exact le_max_left 0 _
  | some pr => exact le_max_left 0 _

/-- On a nonempty candidate list the clearance is
`max 0 (eucDist chosen cp - shrink)` for the chosen candidate. -/
theorem clearance_eq_of_ne_nil (shrink : ℝ) (cp nv : ℝ × ℝ) (pts : List (ℝ × ℝ))
    (h : pts ≠ []) :
    ∃ p ∈ pts, clearance shrink cp nv pts = max 0 (eucDist p cp - shrink) := by
  obtain ⟨p, hp, hsel, _⟩ := selectAcross_spec cp nv pts h
  exact ⟨p, hp, by simp [clearance, hsel]⟩

/-! ## Row-level description of the continuity system

These lemmas convert `system_matrix N * v` into the per-row linear
equations encoded by the insert triples, which is the form in which
the kernel argument for claim C7 proceeds. -/

theorem rowVal_append (L1 L2 : List (ℕ × ℕ × ℝ)) (w : ℕ → ℝ) (r : ℕ) :
    rowVal (L1 ++ L2) w r = rowVal L1 w r + rowVal L2 w r := by
  simp [rowVal]

theorem rowVal_flatMap_range (m : ℕ) (f : ℕ → List (ℕ × ℕ × ℝ)) (w : ℕ → ℝ) (r : ℕ) :
    rowVal ((List.range m).flatMap f) w r = ∑ k ∈ Finset.range m, rowVal (f k) w r := by
  induction m with
  | zero => simp [rowVal]
  | succ m ih =>
      rw [List.range_succ, List.flatMap_append, rowVal_append, ih,
        Finset.sum_range_succ, List.flatMap_singleton]

/-- Multiplying the sparse row description against a vector: the
`Finset.range` sum over columns collapses to the listed entries. -/
theorem triple_sum_mul (L : List (ℕ × ℕ × ℝ)) (m : ℕ) (hL : ∀ t ∈ L, t.2.1 < m)
    (w : ℕ → ℝ) (r : ℕ) :
    (∑ n ∈ Finset.range m,
      ((L.map fun t => if t.1 = r ∧ t.2.1 = n then t.2.2 else 0).sum * w n)) =
      rowVal L w r := by
  induction L with
  | nil => simp [rowVal]
  | cons t L ih =>
      have hcol : t.2.1 < m := hL t (List.mem_cons_self t L)
      have hL' : ∀ s ∈ L, s.2.1 < m := fun s hs => hL s (List.mem_cons_of_mem t hs)
      have expand : (∑ n ∈ Finset.range m,
          (((t :: L).map fun s => if s.1 = r ∧ s.2.1 = n then s.2.2 else 0).sum * w n)) =
          (∑ n ∈ Finset.range m, (if t.1 = r ∧ t.2.1 = n then t.2.2 else 0) * w n) +
            ∑ n ∈ Finset.range m,
              ((L.map fun s => if s.1 = r ∧ s.2.1 = n then s.2.2 else 0).sum * w n) := by
        rw [← Finset.sum_add_distrib]
        refine Finset.sum_congr rfl fun n _ => ?_
        rw [List.map_cons, List.sum_cons, add_mul]
      rw [expand, ih hL']
      have head : (∑ n ∈ Finset.range m, (if t.1 = r ∧ t.2.1 = n then t.2.2 else 0) * w n) =
          if t.1 = r then t.2.2 * w t.2.1 else 0 := by
        by_cases hr : t.1 = r
        · rw [if_pos hr]
          rw [Finset.sum_eq_single_of_mem t.2.1 (Finset.mem_range.mpr hcol)]
          · rw [if_pos ⟨hr, rfl⟩]
          · intro b _ hb
            rw [if_neg fun hc => hb hc.2.symm, zero_mul]
        · rw [if_neg hr]
          refine Finset.sum_eq_zero fun n _ => ?_
          rw [if_neg fun hc => hr hc.1, zero_mul]
      rw [head]
      simp [rowVal]

/-- Every column referenced by the inserts lies inside the matrix. -/
theorem systemTriples_col_lt (N : ℕ) (hN : 2 ≤ N) :
    ∀ t ∈ systemTriples N, t.2.1 < 4 * N := by
  intro t ht
  simp only [systemTriples, List.mem_append, List.mem_flatMap, List.mem_range,
    hdrTriples, tailTriples, loopTriples, List.mem_cons, List.not_mem_nil,
    or_false] at ht
  rcases ht with (ht | ht) | ht
  · rcases ht with h | h | h | h | h | h | h | h | h | h | h | h | h <;>
      (subst h; simp; omega)
  · rcases ht with h | h | h <;> (subst h; simp; omega)
  · obtain ⟨k, hk, hcase⟩ := ht
    rcases hcase with h | h | h | h | h | h | h | h | h | h | h | h <;>
      (subst h; simp; omega)

/-- Bridge: a row of `system_matrix N * v` equals the row functional of
the insert triples applied to `v` (extended by zero outside the index
range). -/
theorem system_mulVec_row (N : ℕ) (hN : 2 ≤ N) (v : Fin (4 * N) → ℝ) (r : ℕ)
    (hr : r < 4 * N) :
    (system_matrix N).mulVec v ⟨r, hr⟩ =
      rowVal (systemTriples N) (fun m => if h : m < 4 * N then v ⟨m, h⟩ else 0) r := by
  have hv : ∀ c : Fin (4 * N),
      v c = (fun m => if h : m < 4 * N then v ⟨m, h⟩ else 0) (c : ℕ) := by
    intro c
    simp [c.isLt]
  have step : (system_matrix N).mulVec v ⟨r, hr⟩ =
      ∑ c : Fin (4 * N),
        (((systemTriples N).map fun t =>
            if t.1 = r ∧ t.2.1 = (c : ℕ) then t.2.2 else 0).sum *
          (fun m => if h : m < 4 * N then v ⟨m, h⟩ else 0) (c : ℕ)) := by
    simp only [Matrix.mulVec, dotProduct, system_matrix, Matrix.of_apply]
    exact Finset.sum_congr rfl fun c _ => by rw [hv c]
  rw [step,
    Fin.sum_univ_eq_sum_range
      (fun m =>
        (((systemTriples N).map fun t =>
            if t.1 = r ∧ t.2.1 = m then t.2.2 else 0).sum *
          (fun m' => if h : m' < 4 * N then v ⟨m', h⟩ else 0) m))
      (4 * N)]
  exact triple_sum_mul (systemTriples N) (4 * N) (systemTriples_col_lt N hN) _ r

theorem rowVal_system_decomp (N : ℕ) (w : ℕ → ℝ) (r : ℕ) :
    rowVal (systemTriples N) w r =
      rowVal hdrTriples w r + rowVal (tailTriples N) w r +
        ∑ k ∈ Finset.range (N - 2), rowVal (loopTriples (k + 1)) w r := by
  rw [systemTriples, rowVal_append, rowVal_append, rowVal_flatMap_range]

theorem rowVal_hdr_high (w : ℕ → ℝ) (r : ℕ) (h : 5 ≤ r) :
    rowVal hdrTriples w r = 0 := by
  have h0 : (0 : ℕ) ≠ r := by omega
  have h1 : (1 : ℕ) ≠ r := by omega
  have h2 : (2 : ℕ) ≠ r := by omega
  have h3 : (3 : ℕ) ≠ r := by omega
  have h4 : (4 : ℕ) ≠ r := by omega
  simp [rowVal, hdrTriples, h0, h1, h2, h3, h4]

theorem rowVal_hdr0 (w : ℕ → ℝ) : rowVal hdrTriples w 0 = w 0 := by
  simp [rowVal, hdrTriples]

theorem rowVal_hdr1 (w : ℕ → ℝ) : rowVal hdrTriples w 1 = 2 * w 2 := by
  simp [rowVal, hdrTriples]

theorem rowVal_hdr2 (w : ℕ → ℝ) :
    rowVal hdrTriples w 2 = w 0 + w 1 + w 2 + w 3 := by
  simp [rowVal, hdrTriples]
  ring

theorem rowVal_hdr3 (w : ℕ → ℝ) :
    rowVal hdrTriples w 3 = w 1 + 2 * w 2 + 3 * w 3 - w 5 := by
  simp [rowVal, hdrTriples]
  ring

theorem rowVal_hdr4 (w : ℕ → ℝ) :
    rowVal hdrTriples w 4 = w 2 + 3 * w 3 - w 6 := by
  simp [rowVal, hdrTriples]
  ring

theorem rowVal_tail_low (N : ℕ) (w : ℕ → ℝ) (r : ℕ) (h : r < 4 * N - 3) :
    rowVal (tailTriples N) w r = 0 := by
  have h1 : 4 * N - 3 ≠ r := by omega
  have h2 : 4 * N - 2 ≠ r := by omega
  have h3 : 4 * N - 1 ≠ r := by omega
  simp [rowVal, tailTriples, h1, h2, h3]

theorem rowVal_tail1 (N : ℕ) (w : ℕ → ℝ) (hN : 2 ≤ N) :
    rowVal (tailTriples N) w (4 * N - 3) = w (4 * N - 4) := by
  have h2 : 4 * N - 2 ≠ 4 * N - 3 := by omega
  have h3 : 4 * N - 1 ≠ 4 * N - 3 := by omega
  simp [rowVal, tailTriples, h2, h3]

theorem rowVal_tail2 (N : ℕ) (w : ℕ → ℝ) (hN : 2 ≤ N) :
    rowVal (tailTriples N) w (4 * N - 2) = 2 * w (4 * N - 2) := by
  have h1 : 4 * N - 3 ≠ 4 * N - 2 := by omega
  have h3 : 4 * N - 1 ≠ 4 * N - 2 := by omega
  simp [rowVal, tailTriples, h1, h3]

theorem rowVal_tail3 (N : ℕ) (w : ℕ → ℝ) (hN : 2 ≤ N) :
    rowVal (tailTriples N) w (4 * N - 1) = w (4 * N - 1) := by
  have h1 : 4 * N - 3 ≠ 4 * N - 1 := by omega
  have h2 : 4 * N - 2 ≠ 4 * N - 1 := by omega
  simp [rowVal, tailTriples, h1, h2]

theorem rowVal_loop_ne (j : ℕ) (w : ℕ → ℝ) (r : ℕ) (h1 : 4 * j + 1 ≠ r)
    (h2 : 4 * j + 2 ≠ r) (h3 : 4 * j + 3 ≠ r) (h4 : 4 * j + 4 ≠ r) :
    rowVal (loopTriples j) w r = 0 := by
  simp [rowVal, loopTriples, h1, h2, h3, h4]

theorem rowVal_loop1 (j : ℕ) (w : ℕ → ℝ) :
    rowVal (loopTriples j) w (4 * j + 1) = w (4 * j) := by
  have h2 : 4 * j + 2 ≠ 4 * j + 1 := by omega
  have h3 : 4 * j + 3 ≠ 4 * j + 1 := by omega
  have h4 : 4 * j + 4 ≠ 4 * j + 1 := by omega
  simp [rowVal, loopTriples, h2, h3, h4]

theorem rowVal_loop2 (j : ℕ) (w : ℕ → ℝ) :
    rowVal (loopTriples j) w (4 * j + 2) =
      w (4 * j) + w (4 * j + 1) + w (4 * j + 2) + w (4 * j + 3) := by
  have h1 : 4 * j + 1 ≠ 4 * j + 2 := by omega
  have h3 : 4 * j + 3 ≠ 4 * j + 2 := by omega
  have h4 : 4 * j + 4 ≠ 4 * j + 2 := by omega
  simp [rowVal, loopTriples, h1, h3, h4]
  ring

theorem rowVal_loop3 (j : ℕ) (w : ℕ → ℝ) :
    rowVal (loopTriples j) w (4 * j + 3) =
      w (4 * j + 1) + 2 * w (4 * j + 2) + 3 * w (4 * j + 3) - w (4 * j + 5) := by
  have h1 : 4 * j + 1 ≠ 4 * j + 3 := by omega
  have h2 : 4 * j + 2 ≠ 4 * j + 3 := by omega
  have h4 : 4 * j + 4 ≠ 4 * j + 3 := by omega
  simp [rowVal, loopTriples, h1, h2, h4]
  ring

theorem rowVal_loop4 (j : ℕ) (w : ℕ → ℝ) :
    rowVal (loopTriples j) w (4 * j + 4) =
      w (4 * j + 2) + 3 * w (4 * j + 3) - w (4 * j + 6) := by
  have h1 : 4 * j + 1 ≠ 4 * j + 4 := by omega
  have h2 : 4 * j + 2 ≠ 4 * j + 4 := by omega
  have h3 : 4 * j + 3 ≠ 4 * j + 4 := by omega
  simp [rowVal, loopTriples, h1, h2, h3]
  ring

theorem loopSum_zero (N : ℕ) (w : ℕ → ℝ) (r : ℕ)
    (hall : ∀ k, k < N - 2 →
      4 * (k + 1) + 1 ≠ r ∧ 4 * (k + 1) + 2 ≠ r ∧
      4 * (k + 1) + 3 ≠ r ∧ 4 * (k + 1) + 4 ≠ r) :
    (∑ k ∈ Finset.range (N - 2), rowVal (loopTriples (k + 1)) w r) = 0 := by
  refine Finset.sum_eq_zero fun k hk => ?_
  obtain ⟨h1, h2, h3, h4⟩ := hall k (Finset.mem_range.mp hk)
  exact rowVal_loop_ne (k + 1) w r h1 h2 h3 h4

theorem loopSum_single (N i : ℕ) (w : ℕ → ℝ) (r : ℕ) (hi1 : 1 ≤ i)
    (hi2 : i + 2 ≤ N)
    (hrow : ∀ j, j ≠ i →
      4 * j + 1 ≠ r ∧ 4 * j + 2 ≠ r ∧ 4 * j + 3 ≠ r ∧ 4 * j + 4 ≠ r) :
    (∑ k ∈ Finset.range (N - 2), rowVal (loopTriples (k + 1)) w r) =
      rowVal (loopTriples i) w r := by
  rw [Finset.sum_eq_single_of_mem (i - 1) (Finset.mem_range.mpr (by omega))]
  · have hidx : i - 1 + 1 = i := by omega
    rw [hidx]
  · intro k _ hk
    obtain ⟨h1, h2, h3, h4⟩ := hrow (k + 1) (by omega)
    exact rowVal_loop_ne (k + 1) w r h1 h2 h3 h4

/-- The linear equations encoded by the rows of the continuity system:
per segment `i` (`a b c d` at indices `4i .. 4i+3`), the boundary rows
of the first segment, the interior-loop rows, and the boundary rows of
the last segment. -/
theorem system_equations (N : ℕ) (hN : 2 ≤ N) (w : ℕ → ℝ)
    (hw : ∀ r < 4 * N, rowVal (systemTriples N) w r = 0) :
    w 0 = 0 ∧ 2 * w 2 = 0 ∧ w 0 + w 1 + w 2 + w 3 = 0 ∧
    w 1 + 2 * w 2 + 3 * w 3 - w 5 = 0 ∧ w 2 + 3 * w 3 - w 6 = 0 ∧
    (∀ i, 1 ≤ i → i + 2 ≤ N →
      w (4 * i) = 0 ∧
      w (4 * i) + w (4 * i + 1) + w (4 * i + 2) + w (4 * i + 3) = 0 ∧
      w (4 * i + 1) + 2 * w (4 * i + 2) + 3 * w (4 * i + 3) - w (4 * i + 5) = 0 ∧
      w (4 * i + 2) + 3 * w (4 * i + 3) - w (4 * i + 6) = 0) ∧
    w (4 * N - 4) = 0 ∧ 2 * w (4 * N - 2) = 0 ∧ w (4 * N - 1) = 0 := by
  have hdrRow : ∀ r, r ≤ 4 →
      rowVal hdrTriples w r + rowVal (tailTriples N) w r +
        (∑ k ∈ Finset.range (N - 2), rowVal (loopTriples (k + 1)) w r) =
        rowVal hdrTriples w r := by
    intro r hr
    rw [rowVal_tail_low N w r (by omega),
      loopSum_zero N w r (fun k hk => ⟨by omega, by omega, by omega, by omega⟩)]
    ring
  have hwd : ∀ r, r < 4 * N →
      rowVal hdrTriples w r + rowVal (tailTriples N) w r +
        (∑ k ∈ Finset.range (N - 2), rowVal (loopTriples (k + 1)) w r) = 0 := by
    intro r hr
    rw [← rowVal_system_decomp]
    exact hw r hr
  refine ⟨?_, ?_, ?_, ?_, ?_, ?_, ?_, ?_, ?_⟩
  · have h := hwd 0 (by omega)
    rw [hdrRow 0 (by omega), rowVal_hdr0] at h
    exact h
  · have h := hwd 1 (by omega)
    rw [hdrRow 1 (by omega), rowVal_hdr1] at h
    exact h
  · have h := hwd 2 (by omega)
    rw [hdrRow 2 (by omega), rowVal_hdr2] at h
    exact h
  · have h := hwd 3 (by omega)
    rw [hdrRow 3 (by omega), rowVal_hdr3] at h
    exact h
  · have h := hwd 4 (by omega)
    rw [hdrRow 4 (by omega), rowVal_hdr4] at h
    exact h
  · intro i hi1 hi2
    have hhigh : ∀ s, 1 ≤ s → s ≤ 4 → rowVal hdrTriples w (4 * i + s) = 0 :=
      fun s hs1 hs4 => rowVal_hdr_high w (4 * i + s) (by omega)
    have htl : ∀ s, 1 ≤ s → s ≤ 4 → rowVal (tailTriples N) w (4 * i + s) = 0 :=
      fun s hs1 hs4 => rowVal_tail_low N w (4 * i + s) (by omega)
    refine ⟨?_, ?_, ?_, ?_⟩
    · have h := hwd (4 * i + 1) (by omega)
      rw [hhigh 1 (by omega) (by omega), htl 1 (by omega) (by omega),
        loopSum_single N i w (4 * i + 1) hi1 hi2
          (fun j hj => ⟨by omega, by omega, by omega, by omega⟩),
        rowVal_loop1] at h
      linarith
    · have h := hwd (4 * i + 2) (by omega)
      rw [hhigh 2 (by omega) (by omega), htl 2 (by omega) (by omega),
        loopSum_single N i w (4 * i + 2) hi1 hi2
          (fun j hj => ⟨by omega, by omega, by omega, by omega⟩),
        rowVal_loop2] at h
      linarith
    · have h := hwd (4 * i + 3) (by omega)
      rw [hhigh 3 (by omega) (by omega), htl 3 (by omega) (by omega),
        loopSum_single N i w (4 * i + 3) hi1 hi2
          (fun j hj => ⟨by omega, by omega, by omega, by omega⟩),
        rowVal_loop3] at h
      linarith
    · have h := hwd (4 * i + 4) (by omega)
      rw [hhigh 4 (by omega) (by omega), htl 4 (by omega) (by omega),
        loopSum_single N i w (4 * i + 4) hi1 hi2
          (fun j hj => ⟨by omega, by omega, by omega, by omega⟩),
        rowVal_loop4] at h
      linarith
  · have h := hwd (4 * N - 3) (by omega)
    rw [rowVal_hdr_high w (4 * N - 3) (by omega), rowVal_tail1 N w hN,
      loopSum_zero N w (4 * N - 3)
        (fun k hk => ⟨by omega, by omega, by omega, by omega⟩)] at h
    linarith
  · have h := hwd (4 * N - 2) (by omega)
    rw [rowVal_hdr_high w (4 * N - 2) (by omega), rowVal_tail2 N w hN,
      loopSum_zero N w (4 * N - 2)
        (fun k hk => ⟨by omega, by omega, by omega, by omega⟩)] at h
    linarith
  · have h := hwd (4 * N - 1) (by omega)
    rw [rowVal_hdr_high w (4 * N - 1) (by omega), rowVal_tail3 N w hN,
      loopSum_zero N w (4 * N - 1)
        (fun k hk => ⟨by omega, by omega, by omega, by omega⟩)] at h
    linarith

/-- Any vector annihilated by every row of the continuity system is
zero: the alternating-sign growth of the `(b, c)` coefficient chain
forces the single free parameter `w 1` to vanish. -/
theorem system_kernel (N : ℕ) (hN : 2 ≤ N) (w : ℕ → ℝ)
    (hw : ∀ r < 4 * N, rowVal (systemTriples N) w r = 0) :
    ∀ m, m < 4 * N → w m = 0 := by
  obtain ⟨e0, e1, e2, e3, e4, eLoop, eT1, eT2, eT3⟩ :=
    system_equations N hN w hw
  have hw2 : w 2 = 0 := by linarith
  -- all `a` coefficients vanish
  have hA : ∀ i, i + 1 ≤ N → w (4 * i) = 0 := by
    intro i hi
    by_cases h0 : i = 0
    · subst h0
      simpa using e0
    · by_cases hlast : i + 2 ≤ N
      · exact (eLoop i (by omega) hlast).1
      · have : 4 * i = 4 * N - 4 := by omega
        rw [this]
        exact eT1
  -- the uniform `b` recurrence
  have hrecb : ∀ i, i + 2 ≤ N →
      w (4 * (i + 1) + 1) = -2 * w (4 * i + 1) - w (4 * i + 2) := by
    intro i hi
    by_cases h0 : i = 0
    · subst h0
      norm_num
      linarith
    · obtain ⟨ha, hs, hb, _⟩ := eLoop i (by omega) hi
      have hidx : 4 * (i + 1) + 1 = 4 * i + 5 := by ring
      rw [hidx]
      linarith
  -- the uniform `c` recurrence
  have hrecc : ∀ i, i + 2 ≤ N →
      w (4 * (i + 1) + 2) = -3 * w (4 * i + 1) - 2 * w (4 * i + 2) := by
    intro i hi
    by_cases h0 : i = 0
    · subst h0
      norm_num
      linarith
    · obtain ⟨ha, hs, _, hc⟩ := eLoop i (by omega) hi
      have hidx : 4 * (i + 1) + 2 = 4 * i + 6 := by ring
      rw [hidx]
      linarith
  -- alternating-sign invariant along the chain
  have hinv : ∀ m, 1 ≤ m → m + 1 ≤ N →
      2 * w 1 ^ 2 ≤ ((-1 : ℝ)) ^ m * w (4 * m + 1) * w 1 ∧
      3 * w 1 ^ 2 ≤ ((-1 : ℝ)) ^ m * w (4 * m + 2) * w 1 := by
    intro m
    induction m with
    | zero => omega
    | succ k ih =>
        intro h1 hk1
        by_cases hk0 : k = 0
        · subst hk0
          have hb5 := hrecb 0 (by omega)
          have hc6 := hrecc 0 (by omega)
          norm_num [hw2] at hb5 hc6
          norm_num
          constructor
          · rw [hb5]
            nlinarith [sq_nonneg (w 1)]
          · rw [hc6]
            nlinarith [sq_nonneg (w 1)]
        · obtain ⟨ihb, ihc⟩ := ih (by omega) (by omega)
          have hb := hrecb k (by omega)
          have hc := hrecc k (by omega)
          have hpow : ((-1 : ℝ)) ^ (k + 1) = ((-1 : ℝ)) ^ k * (-1) := pow_succ _ _
          constructor
          · have expand : ((-1 : ℝ)) ^ (k + 1) * w (4 * (k + 1) + 1) * w 1 =
                2 * (((-1 : ℝ)) ^ k * w (4 * k + 1) * w 1) +
                  ((-1 : ℝ)) ^ k * w (4 * k + 2) * w 1 := by
              rw [hb, hpow]
              ring
            rw [expand]
            nlinarith [sq_nonneg (w 1)]
          · have expand : ((-1 : ℝ)) ^ (k + 1) * w (4 * (k + 1) + 2) * w 1 =
                3 * (((-1 : ℝ)) ^ k * w (4 * k + 1) * w 1) +
                  2 * (((-1 : ℝ)) ^ k * w (4 * k + 2) * w 1) := by
              rw [hc, hpow]
              ring
            rw [expand]
            nlinarith [sq_nonneg (w 1)]
  -- the terminal boundary row kills the free parameter
  have hT : w 1 = 0 := by
    have hlastc : w (4 * (N - 1) + 2) = 0 := by
      have hidx : 4 * (N - 1) + 2 = 4 * N - 2 := by omega
      rw [hidx]
      linarith
    have h3 := (hinv (N - 1) (by omega) (by omega)).2
    rw [hlastc] at h3
    have hsq : w 1 ^ 2 ≤ 0 := by nlinarith
    have : w 1 ^ 2 = 0 := le_antisymm hsq (sq_nonneg _)
    exact pow_eq_zero_iff (two_ne_zero) |>.mp this
  -- zero propagates down the whole chain
  have hz : ∀ m, m + 1 ≤ N → w (4 * m + 1) = 0 ∧ w (4 * m + 2) = 0 := by
    intro m
    induction m with
    | zero =>
        intro _
        constructor
        · simpa using hT
        · simpa using hw2
    | succ k ih =>
        intro hk
        obtain ⟨ihb, ihc⟩ := ih (by omega)
        constructor
        · rw [hrecb k (by omega), ihb, ihc]
          ring
        · rw [hrecc k (by omega), ihb, ihc]
          ring
  -- `d` coefficients of all but the last segment
  have hd : ∀ m, m + 2 ≤ N → w (4 * m + 3) = 0 := by
    intro m hm
    obtain ⟨hb0, hc0⟩ := hz m (by omega)
    have ha0 := hA m (by omega)
    by_cases h0 : m = 0
    · subst h0
      norm_num at ha0 hb0 hc0 ⊢
      linarith
    · have := (eLoop m (by omega) hm).2.1
      linarith
  intro m hm
  obtain ⟨q, r, hr4, rfl⟩ : ∃ q r, r < 4 ∧ m = 4 * q + r :=
    ⟨m / 4, m % 4, Nat.mod_lt _ (by norm_num), (Nat.div_add_mod m 4).symm⟩
  have hq : q + 1 ≤ N := by omega
  have hr : r = 0 ∨ r = 1 ∨ r = 2 ∨ r = 3 := by omega
  rcases hr with rfl | rfl | rfl | rfl
  · simpa using hA q hq
  · exact (hz q hq).1
  · exact (hz q hq).2
  · by_cases hlast : q + 2 ≤ N
    · exact hd q hlast
    · have : 4 * q + 3 = 4 * N - 1 := by omega
      rw [this]
      exact eT3

/-- The determinant of the continuity system does not vanish. -/
theorem system_matrix_det_ne_zero (N : ℕ) (hN : 2 ≤ N) :
    (system_matrix N).det ≠ 0 := by
  intro hdet
  obtain ⟨v, hv0, hmv⟩ := Matrix.exists_mulVec_eq_zero_iff.mpr hdet
  have hw : ∀ r < 4 * N,
      rowVal (systemTriples N) (fun m => if h : m < 4 * N then v ⟨m, h⟩ else 0) r = 0 := by
    intro r hr
    rw [← system_mulVec_row N hN v r hr, hmv]
    rfl
  apply hv0
  funext i
  have := system_kernel N hN (fun m => if h : m < 4 * N then v ⟨m, h⟩ else 0) hw
    (i : ℕ) i.isLt
  simpa [i.isLt] using this

/-! ## Claim theorems -/

/-- Claim C2: `computeConstraints` produces the identity constraint
matrix, `lower = -rightClearance` and `upper = leftClearance` per
control point, then forces the first control point's bounds to `[0,0]`
and multiplies the last control point's bounds by `lastPointShrink`;
`lastPointShrink = 0` collapses the last bound to `[0,0]` and
`lastPointShrink = 1` leaves the full clearance bound. -/
theorem computeConstraints_spec (n : ℕ) (hn : 2 ≤ n) (d : ℕ → ℝ × ℝ) (s : ℝ) :
    constraintA n = 1 ∧
    lbVec n d s 0 = 0 ∧ ubVec n d s 0 = 0 ∧
    (∀ i, 0 < i → i < n - 1 → lbVec n d s i = -(d i).2 ∧ ubVec n d s i = (d i).1) ∧
    lbVec n d s (n - 1) = s * -(d (n - 1)).2 ∧
    ubVec n d s (n - 1) = s * (d (n - 1)).1 ∧
    (s = 0 → lbVec n d s (n - 1) = 0 ∧ ubVec n d s (n - 1) = 0) ∧
    (s = 1 → lbVec n d s (n - 1) = -(d (n - 1)).2 ∧ ubVec n d s (n - 1) = (d (n - 1)).1) := by
  have h0last : (0 : ℕ) ≠ n - 1 := by omega
  have hlast0 : (n - 1 : ℕ) ≠ 0 := by omega
  refine ⟨rfl, ?_, ?_, ?_, ?_, ?_, ?_, ?_⟩
  · simp [lbVec, Function.update_noteq h0last, Function.update_same]
  · simp [ubVec, Function.update_noteq h0last, Function.update_same]
  · intro i hi1 hi2
    have hA : (i : ℕ) ≠ n - 1 := by omega
    have hB : (i : ℕ) ≠ 0 := by omega
    constructor
    · simp [lbVec, Function.update_noteq hA, Function.update_noteq hB]
    · simp [ubVec, Function.update_noteq hA, Function.update_noteq hB]
  · simp [lbVec, Function.update_same, Function.update_noteq hlast0]
  · simp [ubVec, Function.update_same, Function.update_noteq hlast0]
  · intro hs
    subst hs
    constructor
    · simp [lbVec, Function.update_same]
    · simp [ubVec, Function.update_same]
  · intro hs
    subst hs
    constructor
    · simp [lbVec, Function.update_same, Function.update_noteq hlast0]
    · simp [ubVec, Function.update_same, Function.update_noteq hlast0]

/-- Witness for `computeConstraints_spec` at `n = 2`. -/
theorem computeConstraints_spec_witness :
    (2 ≤ 2) ∧
    (constraintA 2 = 1 ∧
     lbVec 2 (fun _ => ((1 : ℝ), (2 : ℝ))) (1 / 2) 0 = 0 ∧
     ubVec 2 (fun _ => ((1 : ℝ), (2 : ℝ))) (1 / 2) 0 = 0 ∧
     (∀ i, 0 < i → i < 2 - 1 →
       lbVec 2 (fun _ => ((1 : ℝ), (2 : ℝ))) (1 / 2) i =
         -((fun _ => ((1 : ℝ), (2 : ℝ))) i).2 ∧
       ubVec 2 (fun _ => ((1 : ℝ), (2 : ℝ))) (1 / 2) i =
         ((fun _ => ((1 : ℝ), (2 : ℝ))) i).1) ∧
     lbVec 2 (fun _ => ((1 : ℝ), (2 : ℝ))) (1 / 2) (2 - 1) =
       (1 / 2) * -((fun _ => ((1 : ℝ), (2 : ℝ))) (2 - 1)).2 ∧
     ubVec 2 (fun _ => ((1 : ℝ), (2 : ℝ))) (1 / 2) (2 - 1) =
       (1 / 2) * ((fun _ => ((1 : ℝ), (2 : ℝ))) (2 - 1)).1 ∧
     ((1 / 2 : ℝ) = 0 →
       lbVec 2 (fun _ => ((1 : ℝ), (2 : ℝ))) (1 / 2) (2 - 1) = 0 ∧
       ubVec 2 (fun _ => ((1 : ℝ), (2 : ℝ))) (1 / 2) (2 - 1) = 0) ∧
     ((1 / 2 : ℝ) = 1 →
       lbVec 2 (fun _ => ((1 : ℝ), (2 : ℝ))) (1 / 2) (2 - 1) =
         -((fun _ => ((1 : ℝ), (2 : ℝ))) (2 - 1)).2 ∧
       ubVec 2 (fun _ => ((1 : ℝ), (2 : ℝ))) (1 / 2) (2 - 1) =
         ((fun _ => ((1 : ℝ), (2 : ℝ))) (2 - 1)).1)) :=
  ⟨by norm_num, computeConstraints_spec 2 (by norm_num) (fun _ => ((1 : ℝ), (2 : ℝ))) (1 / 2)⟩

/-- Claim C3: each reported boundary clearance equals
`max 0 (d - shrinkMargin)` where `d` is the Euclidean distance from
the control point to the selected boundary sample, and every clearance
is nonnegative. -/
theorem boundaryDistance_spec (inp : OptInputs) (i : ℕ)
    (hL : inp.leftCands i ≠ []) (hR : inp.rightCands i ≠ []) :
    (∃ p ∈ inp.leftCands i,
      (boundaryDistance inp i).1 = max 0 (eucDist p (inp.cps i) - inp.shrinkMargin)) ∧
    (∃ p ∈ inp.rightCands i,
      (boundaryDistance inp i).2 = max 0 (eucDist p (inp.cps i) - inp.shrinkMargin)) ∧
    0 ≤ (boundaryDistance inp i).1 ∧ 0 ≤ (boundaryDistance inp i).2 := by
  refine ⟨?_, ?_, ?_, ?_⟩
  · simpa [boundaryDistance] using
      clearance_eq_of_ne_nil inp.shrinkMargin (inp.cps i)
        (normalVec inp.coefBx inp.coefBy i) (inp.leftCands i) hL
  · simpa [boundaryDistance] using
      clearance_eq_of_ne_nil inp.shrinkMargin (inp.cps i)
        (normalVec inp.coefBx inp.coefBy i) (inp.rightCands i) hR
  · simpa [boundaryDistance] using
      clearance_nonneg inp.shrinkMargin (inp.cps i)
        (normalVec inp.coefBx inp.coefBy i) (inp.leftCands i)
  · simpa [boundaryDistance] using
      clearance_nonneg inp.shrinkMargin (inp.cps i)
        (normalVec inp.coefBx inp.coefBy i) (inp.rightCands i)

/-- Witness for `boundaryDistance_spec` on `sampleInput`. -/
theorem boundaryDistance_spec_witness :
    sampleInput.leftCands 0 ≠ [] ∧ sampleInput.rightCands 0 ≠ [] ∧
    ((∃ p ∈ sampleInput.leftCands 0,
       (boundaryDistance sampleInput 0).1 =
         max 0 (eucDist p (sampleInput.cps 0) - sampleInput.shrinkMargin)) ∧
     (∃ p ∈ sampleInput.rightCands 0,
       (boundaryDistance sampleInput 0).2 =
         max 0 (eucDist p (sampleInput.cps 0) - sampleInput.shrinkMargin)) ∧
     0 ≤ (boundaryDistance sampleInput 0).1 ∧
     0 ≤ (boundaryDistance sampleInput 0).2) :=
  ⟨by simp [sampleInput], by simp [sampleInput],
   boundaryDistance_spec sampleInput 0 (by simp [sampleInput]) (by simp [sampleInput])⟩

/-- Claim C4: among the k candidates returned by the spatial index the
selection loop chooses one minimizing the perpendicular distance to
the normal line through the control point, and records that chosen
candidate's Euclidean distance to the control point (not its line
distance). -/
theorem selection_minimizes_planeDist (cp nv : ℝ × ℝ) (pts : List (ℝ × ℝ))
    (h : pts ≠ []) :
    ∃ p ∈ pts, selectAcross cp nv pts = some (planeDist cp nv p, eucDist p cp) ∧
      ∀ q ∈ pts, planeDist cp nv p ≤ planeDist cp nv q :=
  selectAcross_spec cp nv pts h

/-- Witness for `selection_minimizes_planeDist` on a two-candidate
list. -/
theorem selection_minimizes_planeDist_witness :
    ([((1 : ℝ), (1 : ℝ)), ((2 : ℝ), (0 : ℝ))] : List (ℝ × ℝ)) ≠ [] ∧
    (∃ p ∈ ([((1 : ℝ), (1 : ℝ)), ((2 : ℝ), (0 : ℝ))] : List (ℝ × ℝ)),
      selectAcross ((0 : ℝ), (0 : ℝ)) ((1 : ℝ), (0 : ℝ))
          [((1 : ℝ), (1 : ℝ)), ((2 : ℝ), (0 : ℝ))] =
        some (planeDist ((0 : ℝ), (0 : ℝ)) ((1 : ℝ), (0 : ℝ)) p,
          eucDist p ((0 : ℝ), (0 : ℝ))) ∧
      ∀ q ∈ ([((1 : ℝ), (1 : ℝ)), ((2 : ℝ), (0 : ℝ))] : List (ℝ × ℝ)),
        planeDist ((0 : ℝ), (0 : ℝ)) ((1 : ℝ), (0 : ℝ)) p ≤
          planeDist ((0 : ℝ), (0 : ℝ)) ((1 : ℝ), (0 : ℝ)) q) :=
  ⟨by simp,
   selection_minimizes_planeDist ((0 : ℝ), (0 : ℝ)) ((1 : ℝ), (0 : ℝ))
     [((1 : ℝ), (1 : ℝ)), ((2 : ℝ), (0 : ℝ))] (by simp)⟩

/-- Claim C5: on the solve path, the `i`-th control point written into
the output spline is the reference's `i`-th control point plus
`normal_weight * solution(i)` times the `i`-th normal — the weight
multiplies the whole solution vector uniformly. -/
theorem solve_writes_scaled_displacement (store : ℕ → List (ℝ × ℝ))
    (refId outId : ℕ) (nv : ℕ → ℝ × ℝ) (out : SolverOutcome) (w : ℝ) (i : ℕ)
    (hi : i < (store refId).length) :
    (solveRun store refId outId nv out w outId).getD i (0, 0) =
      (((store refId).getD i (0, 0)).1 + w * out.solution i * (nv i).1,
       ((store refId).getD i (0, 0)).2 + w * out.solution i * (nv i).2) := by
  unfold solveRun
  rw [Function.update_same]
  unfold solveOutput
  simp [List.getD_eq_getElem?_getD, List.getElem?_eq_getElem, hi, List.getElem?_range, hi]

/-- Witness for `solve_writes_scaled_displacement` on a one-point
spline. -/
theorem solve_writes_scaled_displacement_witness :
    0 < ((fun _ => [((1 : ℝ), (2 : ℝ))]) 0 : List (ℝ × ℝ)).length ∧
    (solveRun (fun _ => [((1 : ℝ), (2 : ℝ))]) 0 0 (fun _ => ((0 : ℝ), (1 : ℝ)))
        { success := true, solution := fun _ => (3 : ℝ) } 2 0).getD 0 (0, 0) =
      ((((fun _ => [((1 : ℝ), (2 : ℝ))]) 0 : List (ℝ × ℝ)).getD 0 (0, 0)).1 +
         (2 : ℝ) * ({ success := true, solution := fun _ => (3 : ℝ) } :
           SolverOutcome).solution 0 * ((fun _ => ((0 : ℝ), (1 : ℝ))) 0).1,
       (((fun _ => [((1 : ℝ), (2 : ℝ))]) 0 : List (ℝ × ℝ)).getD 0 (0, 0)).2 +
         (2 : ℝ) * ({ success := true, solution := fun _ => (3 : ℝ) } :
           SolverOutcome).solution 0 * ((fun _ => ((0 : ℝ), (1 : ℝ))) 0).2) :=
  ⟨by simp,
   solve_writes_scaled_displacement (fun _ => [((1 : ℝ), (2 : ℝ))]) 0 0
     (fun _ => ((0 : ℝ), (1 : ℝ))) { success := true, solution := fun _ => (3 : ℝ) }
     2 0 (by simp)⟩

/-- Claim C10: `solve` writes only the output spline; every other
spline in the store is untouched, and the written control points are
computed from the reference spline's control points as they were
before the single write — so aliasing the output to the reference is
safe. -/
theorem solve_frame_effect (store : ℕ → List (ℝ × ℝ)) (refId outId j : ℕ)
    (nv : ℕ → ℝ × ℝ) (out : SolverOutcome) (w : ℝ) (hj : j ≠ outId) :
    solveRun store refId outId nv out w j = store j ∧
    solveRun store refId outId nv out w outId =
      solveOutput (store refId) nv out.solution w :=
  ⟨Function.update_noteq hj _ _, Function.update_same _ _ _⟩

/-- Witness for `solve_frame_effect`. -/
theorem solve_frame_effect_witness :
    (0 : ℕ) ≠ 1 ∧
    (solveRun (fun _ => [((5 : ℝ), (6 : ℝ))]) 0 1 (fun _ => ((0 : ℝ), (0 : ℝ)))
        { success := true, solution := fun _ => (0 : ℝ) } 0 0 =
      (fun _ => [((5 : ℝ), (6 : ℝ))]) 0 ∧
     solveRun (fun _ => [((5 : ℝ), (6 : ℝ))]) 0 1 (fun _ => ((0 : ℝ), (0 : ℝ)))
        { success := true, solution := fun _ => (0 : ℝ) } 0 1 =
      solveOutput ((fun _ => [((5 : ℝ), (6 : ℝ))]) 0) (fun _ => ((0 : ℝ), (0 : ℝ)))
        ({ success := true, solution := fun _ => (0 : ℝ) } : SolverOutcome).solution 0) :=
  ⟨by decide,
   solve_frame_effect (fun _ => [((5 : ℝ), (6 : ℝ))]) 0 1 0 (fun _ => ((0 : ℝ), (0 : ℝ)))
     { success := true, solution := fun _ => (0 : ℝ) } 0 (by decide)⟩

/-- Claim C1 (code bug): the solver's failure flag is discarded —
`solve` applies the solution vector and overwrites the output spline
even when the outcome is flagged as a failure, instead of surfacing an
error and leaving the control points unmodified. -/
theorem solve_applies_solution_on_failure :
    ({ success := false, solution := fun _ => (1 : ℝ) } : SolverOutcome).success = false ∧
    solveRun (fun _ => [((0 : ℝ), (0 : ℝ))]) 0 0 (fun _ => ((1 : ℝ), (0 : ℝ)))
        { success := false, solution := fun _ => (1 : ℝ) } 1 0 ≠
      (fun _ => [((0 : ℝ), (0 : ℝ))]) 0 := by
  refine ⟨rfl, ?_⟩
  simp [solveRun, solveOutput, Function.update_same, List.range_succ]

/-- Claim C6: the assembled Hessian is exactly
`symmetrize(T_nx' P_xx T_nx + T_ny' P_xy T_nx + T_ny' P_yy T_ny)` with
`symmetrize(M) = (M + M') / 2`, and is therefore equal to its own
transpose for every input. -/
theorem hessian_symmetrized (n : ℕ) (nv : ℕ → ℝ × ℝ)
    (si : Matrix (Fin (4 * n)) (Fin (4 * n)) ℝ) :
    Hmat n nv si =
      (2 : ℝ)⁻¹ •
        (((TnxMat n nv si)ᵀ * Pxx n nv * TnxMat n nv si +
            (TnyMat n nv si)ᵀ * Pxy n nv * TnxMat n nv si +
            (TnyMat n nv si)ᵀ * Pyy n nv * TnyMat n nv si) +
          ((TnxMat n nv si)ᵀ * Pxx n nv * TnxMat n nv si +
            (TnyMat n nv si)ᵀ * Pxy n nv * TnxMat n nv si +
            (TnyMat n nv si)ᵀ * Pyy n nv * TnyMat n nv si)ᵀ) ∧
    (Hmat n nv si)ᵀ = Hmat n nv si := by
  constructor
  · unfold Hmat tmpMat
    rw [add_comm]
  · unfold Hmat
    rw [Matrix.transpose_smul, Matrix.transpose_add, Matrix.transpose_transpose,
      add_comm]

/-- Claim C7: for every control-point count `N ≥ 2` the `4N x 4N`
continuity system assembled by `setSystemMatrixInverse` is
non-singular over exact arithmetic, so the inverse computed by solving
against the identity satisfies `system * inverse = identity` (and is
a two-sided inverse). -/
theorem system_matrix_nonsingular (N : ℕ) (hN : 2 ≤ N) :
    (system_matrix N).det ≠ 0 ∧
    system_matrix N * sysInvOf N = 1 ∧
    sysInvOf N * system_matrix N = 1 := by
  have hdet := system_matrix_det_ne_zero N hN
  have hunit : IsUnit (system_matrix N).det := isUnit_iff_ne_zero.mpr hdet
  exact ⟨hdet, Matrix.mul_nonsing_inv _ hunit, Matrix.nonsing_inv_mul _ hunit⟩

/-- Witness for `system_matrix_nonsingular` at `N = 2`. -/
theorem system_matrix_nonsingular_witness :
    (2 : ℕ) ≤ 2 ∧
    ((system_matrix 2).det ≠ 0 ∧
     system_matrix 2 * sysInvOf 2 = 1 ∧
     sysInvOf 2 * system_matrix 2 = 1) :=
  ⟨by norm_num, system_matrix_nonsingular 2 (by norm_num)⟩

/-- Claim C8: one `setupQP` pass is a pure function of the current
geometry, configuration and cached system inverse; running it twice in
a row with identical inputs produces identical `(H, c, A, bounds)` and
identical cached state. -/
theorem setup_idempotent (inp : OptInputs) (lps : ℝ)
    (si : Matrix (Fin (4 * inp.n)) (Fin (4 * inp.n)) ℝ) :
    (setupStep inp lps (setupStep inp lps si).1).2 = (setupStep inp lps si).2 ∧
    (setupStep inp lps (setupStep inp lps si).1).1 = (setupStep inp lps si).1 := by
  cases hb : inp.constantSystemMatrix <;> simp [setupStep, hb]

/-- Claim C9 counterexample: on an input whose first-derivative
coefficient pair is zero at every control point (degenerate normals),
`setupQP` does not fail — it runs to completion, because the only
validated precondition is the `last_point_shrink` range assert. -/
theorem setup_accepts_degenerate_normals :
    rawNormal degenInput.coefBx degenInput.coefBy 0 = (0, 0) ∧
    0 < degenInput.n ∧
    (setupQPRun degenInput (1 / 2) 1).isSome = true := by
  refine ⟨?_, ?_, ?_⟩
  · simp [degenInput, rawNormal]
  · simp [degenInput]
  · rw [setupQPRun, if_pos (by norm_num)]
    rfl

/-- Claim C9 (amended): `setUp` performs no degenerate-normal
validation; the only input check on the `setUp` path is the assertion
`0 ≤ last_point_shrink ≤ 1`, so setup succeeds exactly when the shrink
factor is in range, regardless of the spline's derivative
coefficients. -/
theorem setup_only_validates_shrink (inp : OptInputs) (lps : ℝ)
    (si : Matrix (Fin (4 * inp.n)) (Fin (4 * inp.n)) ℝ) :
    (setupQPRun inp lps si).isSome = true ↔ (0 ≤ lps ∧ lps ≤ 1) := by
  by_cases h : 0 ≤ lps ∧ lps ≤ 1 <;> simp [setupQPRun, h]

end CurvMin
